import Mathlib

/-!
Shallow embedding of `src/parse_csv.py`, a Python script that reads a CSV
file with `csv.DictReader`, tallies data rows by the value of their
`group` field, and prints the tally sorted by group name.

The CSV file is modelled after CSV parsing as a list of records (the
first record is the header, exactly as `csv.DictReader` takes the first
row of the underlying reader as its `fieldnames`).  Python's `None`
(the `restval` filled in for short rows) is modelled as `Option.none`,
so a group key is an `Option String`.
-/

namespace ParseCsv

/-- Errors the Python script can raise: `KeyError` from `row['group']`,
`TypeError` from `sorted` comparing `None` with `str`, and an `OSError`
from `open` when the file cannot be read. -/
inductive PyErr where
  | keyError
  | typeError
  | fileError
deriving DecidableEq

/-- One parsed CSV record: the list of its field strings. -/
abbrev Record := List String

/-- A parsed CSV file: its records in order; the first is the header. -/
abbrev CsvFile := List Record

/-- A Python value usable as a group key: a string, or `none` for
Python's `None` (the `restval` of `csv.DictReader`). -/
abbrev GroupKey := Option String

/-- The `groups` dict, as an insertion-ordered association list from
group key to count. -/
abbrev Tally := List (GroupKey × Nat)

/-- Index of the last occurrence of `x` in `l`.  `csv.DictReader`
builds each row as `dict(zip(fieldnames, row))` (with `restval`
overwrites for the missing tail), so with duplicate header names the
last occurrence wins. -/
def lastIdxOf (l : List String) (x : String) : Option Nat :=
  match l with
  | [] => none
  | y :: ys =>
    match lastIdxOf ys x with
    | some i => some (i + 1)
    | none => if y = x then some 0 else none

/-- Evaluation of `row['group']` for a data record under the given
header: `KeyError` when the header has no `group` column, otherwise the
record's field at the (last) `group` column, or `none` (Python `None`,
the `restval`) when the record is too short to reach that column.
Extra fields beyond the header go under the `restkey` and do not affect
the `group` lookup. -/
def readGroup (header : List String) (record : Record) : Except PyErr GroupKey :=
  match lastIdxOf header "group" with
  | none => .error .keyError
  | some i => .ok (record.get? i)

/-- One tally update: `groups[group] += 1` when the key is present,
`groups[group] = 1` otherwise (insertion order preserved, new keys
appended, as for a Python dict). -/
def tallyInc (t : Tally) (g : GroupKey) : Tally :=
  match t with
  | [] => [(g, 1)]
  | (k, c) :: rest =>
    if k = g then (k, c + 1) :: rest else (k, c) :: tallyInc rest g

/-- The row loop of the script: for each record yielded by the reader
(`csv.DictReader` silently skips records that are the empty list, i.e.
blank lines), read `row['group']` and update the tally; the first error
aborts the loop. -/
def processRows (header : List String) : List Record → Tally → Except PyErr Tally
  | [], t => .ok t
  | r :: rs, t =>
    if r = [] then processRows header rs t
    else
      match readGroup header r with
      | .error e => .error e
      | .ok g => processRows header rs (tallyInc t g)

/-- Python's `<=` on strings, on their character lists: lexicographic
comparison by Unicode code point, exactly as CPython compares `str`
values when `sorted` orders the group names. -/
def strLE : List Char → List Char → Bool
  | [], _ => true
  | _ :: _, [] => false
  | a :: as, b :: bs =>
    if a < b then true
    else if b < a then false
    else strLE as bs

/-- Python comparison on group keys as used by `sorted`: strings
compare lexicographically by code point.  The `none`/`some` cases never
reach Python's comparison (it raises `TypeError` instead, handled in
`sortedItems`); they are ordered with `none` first to keep the relation
total. -/
def keyLE (a b : GroupKey) : Bool :=
  match a, b with
  | none, _ => true
  | some _, none => false
  | some x, some y => strLE x.data y.data

/-- Order on tally items used by `sorted(groups.items())`: items are
compared by key (keys are distinct, so counts are never compared). -/
def itemLE (p q : GroupKey × Nat) : Prop := keyLE p.1 q.1 = true

instance : DecidableRel itemLE := fun p q => Bool.decEq (keyLE p.1 q.1) true

/-- Whether the tally has the `None` key (a short row was seen). -/
def hasNoneKey (t : Tally) : Bool :=
  t.any (fun p => p.1 = none)

/-- Whether the tally has at least one string key. -/
def hasSomeKey (t : Tally) : Bool :=
  t.any (fun p => p.1 ≠ none)

/-- Evaluation of `sorted(groups.items())`: Python raises `TypeError`
when the sort compares `None` with a `str`, which happens exactly when
both kinds of key are present (a dict has at most one `None` key, so a
mixed tally has at least two items and the sort must compare the `None`
key with some string key).  Otherwise the items sorted by key. -/
def sortedItems (t : Tally) : Except PyErr (List (GroupKey × Nat)) :=
  if hasNoneKey t && hasSomeKey t then .error .typeError
  else .ok (List.insertionSort itemLE t)

/-- How an f-string renders a group key: `None` renders as `"None"`,
a string renders as itself. -/
def fmtKey : GroupKey → String
  | none => "None"
  | some s => s

/-- The f-string of the report loop:
`f'- {group}: {count} fields'`. -/
def fmtLine (p : GroupKey × Nat) : String :=
  "- " ++ fmtKey p.1 ++ ": " ++ toString p.2 ++ " fields"

/-- Observable outcome of a run: the lines printed to stdout, in
order, and the error the script terminated with, if any. -/
structure RunResult where
  output : List String
  error : Option PyErr
deriving DecidableEq

/-- The header row the `DictReader` uses: the first record of the file
(an empty file gives `fieldnames = None`; no data row is ever read from
it, so the empty header stands in for it harmlessly). -/
def header (file : CsvFile) : List String := file.headD []

/-- The whole script on an opened, parsed file: tally the data rows,
then print `Groups found:` followed by one line per sorted tally item.
`Groups found:` is printed before `sorted` is evaluated, so a
`TypeError` from the sort still leaves that one line on stdout, while
an error in the row loop aborts before anything is printed. -/
def run (file : CsvFile) : RunResult :=
  match processRows (header file) file.tail [] with
  | .error e => ⟨[], some e⟩
  | .ok t =>
    match sortedItems t with
    | .error e => ⟨["Groups found:"], some e⟩
    | .ok s => ⟨"Groups found:" :: s.map fmtLine, none⟩

/-- The hardcoded input path of the script. -/
def csvPath : String := "attached_assets/S&P_KY3P_Security_Assessment_4Groups_Final.csv"

/-- The script as run against a file system, modelled as a partial map
from path to parsed contents: `open` fails (before any output) when
the path is absent, otherwise the script runs on the file's contents.
Only the hardcoded `csvPath` is ever consulted. -/
def runOpen (fs : String → Option CsvFile) : RunResult :=
  match fs csvPath with
  | none => ⟨[], some .fileError⟩
  | some f => run f

/-- Count lookup in the tally (0 when the key is absent), as a
specification-side observer of the `groups` dict. -/
def tallyLookup (t : Tally) (g : GroupKey) : Nat :=
  match t with
  | [] => 0
  | (k, c) :: rest => if k = g then c else tallyLookup rest g

/-- Modelled from the spec: the number of data rows whose `group` field
is non-empty, the quantity the spec's invariant speaks about (a row
counts when its `group` lookup yields a non-empty string). -/
def specNonEmptyGroupRows (header : List String) (rows : List Record) : Nat :=
  (rows.filter (fun r =>
    match readGroup header r with
    | .ok (some g) => !(g == "")
    | _ => false)).length

/-- The number of data rows the loop body actually runs on: the records
that are not blank lines (the `DictReader` skips empty records). -/
def nonBlankCount (rows : List Record) : Nat :=
  rows.countP (fun r => !r.isEmpty)

/-- The number of non-blank data rows whose `group` lookup yields the
key `g`. -/
def countGroup (header : List String) (rows : List Record) (g : GroupKey) : Nat :=
  rows.countP (fun r =>
    !r.isEmpty && decide ((readGroup header r).toOption = some g))

/-- Strict comparison between group keys as printed in the report:
both keys are strings and the first is strictly below the second in the
lexicographic (code-point) order on its characters. -/
def keyLT (a b : GroupKey) : Prop :=
  ∃ x y, a = some x ∧ b = some y ∧ List.Lex (· < ·) x.data y.data

section OrderLemmas

theorem strLE_cons_iff {a b : Char} {as bs : List Char} :
    strLE (a :: as) (b :: bs) = true ↔ a < b ∨ (a = b ∧ strLE as bs = true) := by
  by_cases h1 : a < b
  · simp [strLE, h1]
  · by_cases h2 : b < a
    · have hne : ¬ a = b := by
        rintro rfl
        exact absurd h2 (Char.not_lt.mpr (Char.le_refl a))
      simp [strLE, h1, h2, hne]
    · have heq : a = b := Char.le_antisymm (Char.not_lt.mp h2) (Char.not_lt.mp h1)
      simp [strLE, h1, h2, heq]

theorem strLE_total : ∀ x y : List Char, strLE x y = true ∨ strLE y x = true
  | [], _ => Or.inl rfl
  | _ :: _, [] => Or.inr rfl
  | a :: as, b :: bs => by
    by_cases h1 : a < b
    · exact Or.inl (strLE_cons_iff.mpr (Or.inl h1))
    · by_cases h2 : b < a
      · exact Or.inr (strLE_cons_iff.mpr (Or.inl h2))
      · have heq : a = b := Char.le_antisymm (Char.not_lt.mp h2) (Char.not_lt.mp h1)
        cases strLE_total as bs with
        | inl h => exact Or.inl (strLE_cons_iff.mpr (Or.inr ⟨heq, h⟩))
        | inr h => exact Or.inr (strLE_cons_iff.mpr (Or.inr ⟨heq.symm, h⟩))

theorem strLE_trans : ∀ {x y z : List Char},
    strLE x y = true → strLE y z = true → strLE x z = true
  | [], _, _, _, _ => rfl
  | _ :: _, [], _, hxy, _ => by simp [strLE] at hxy
  | _ :: _, _ :: _, [], _, hyz => by simp [strLE] at hyz
  | a :: as, b :: bs, c :: cs, hxy, hyz => by
    rcases strLE_cons_iff.mp hxy with hab | ⟨rfl, hab⟩ <;>
      rcases strLE_cons_iff.mp hyz with hbc | ⟨rfl, hbc⟩
    · exact strLE_cons_iff.mpr (Or.inl (Nat.lt_trans hab hbc))
    · exact strLE_cons_iff.mpr (Or.inl hab)
    · exact strLE_cons_iff.mpr (Or.inl hbc)
    · exact strLE_cons_iff.mpr (Or.inr ⟨rfl, strLE_trans hab hbc⟩)

theorem strLE_lex_of_ne : ∀ {x y : List Char},
    strLE x y = true → x ≠ y → List.Lex (· < ·) x y
  | [], [], _, hne => absurd rfl hne
  | [], _ :: _, _, _ => List.Lex.nil
  | _ :: _, [], hxy, _ => by simp [strLE] at hxy
  | a :: as, b :: bs, hxy, hne => by
    rcases strLE_cons_iff.mp hxy with hab | ⟨rfl, hab⟩
    · exact List.Lex.rel hab
    · refine List.Lex.cons (strLE_lex_of_ne hab ?_)
      intro h
      exact hne (by rw [h])

instance : IsTotal (GroupKey × Nat) itemLE where
  total p q := by
    unfold itemLE keyLE
    match p, q with
    | (none, _), _ => exact Or.inl rfl
    | (some _, _), (none, _) => exact Or.inr rfl
    | (some x, _), (some y, _) => exact strLE_total x.data y.data

instance : IsTrans (GroupKey × Nat) itemLE where
  trans p q r := by
    unfold itemLE keyLE
    match p, q, r with
    | (none, _), _, _ => intro _ _; rfl
    | (some _, _), (none, _), _ => intro h; exact absurd h (by simp)
    | (some _, _), (some _, _), (none, _) => intro _ h; exact absurd h (by simp)
    | (some x, _), (some y, _), (some z, _) => exact strLE_trans

end OrderLemmas

section TallyLemmas

/-- Shorthand for the total of all counts in a tally. -/
def sumT (t : Tally) : Nat := (t.map Prod.snd).sum

theorem tallyInc_sum (t : Tally) (g : GroupKey) :
    sumT (tallyInc t g) = sumT t + 1 := by
  induction t with
  | nil => rfl
  | cons p rest ih =>
    obtain ⟨k, c⟩ := p
    by_cases h : k = g <;> simp [tallyInc, h, sumT, List.map_cons] at ih ⊢ <;> omega

theorem tallyInc_lookup_same (t : Tally) (g : GroupKey) :
    tallyLookup (tallyInc t g) g = tallyLookup t g + 1 := by
  induction t with
  | nil => simp [tallyInc, tallyLookup]
  | cons p rest ih =>
    obtain ⟨k, c⟩ := p
    by_cases h : k = g <;> simp [tallyInc, tallyLookup, h, ih]

theorem tallyInc_lookup_ne (t : Tally) (g g' : GroupKey) (hne : g' ≠ g) :
    tallyLookup (tallyInc t g) g' = tallyLookup t g' := by
  induction t with
  | nil =>
    have hgg : ¬ g = g' := fun h => hne h.symm
    simp [tallyInc, tallyLookup, hgg]
  | cons p rest ih =>
    obtain ⟨k, c⟩ := p
    by_cases h : k = g
    · subst h
      have hkg : ¬ k = g' := fun h => hne h.symm
      simp [tallyInc, tallyLookup, hkg]
    · by_cases h' : k = g'
      · subst h'
        simp [tallyInc, tallyLookup, h]
      · simp [tallyInc, tallyLookup, h, h', ih]

theorem tallyInc_mem_keys (t : Tally) (g k : GroupKey) :
    k ∈ (tallyInc t g).map Prod.fst ↔ k ∈ t.map Prod.fst ∨ k = g := by
  induction t with
  | nil => simp [tallyInc]
  | cons p rest ih =>
    obtain ⟨k', c⟩ := p
    by_cases h : k' = g
    · subst h
      by_cases hk : k = k' <;> simp [tallyInc, hk]
    · simp [tallyInc, h, ih]
      tauto

theorem tallyInc_keys_nodup (t : Tally) (g : GroupKey)
    (h : (t.map Prod.fst).Nodup) : ((tallyInc t g).map Prod.fst).Nodup := by
  induction t with
  | nil => simp [tallyInc]
  | cons p rest ih =>
    obtain ⟨k, c⟩ := p
    simp only [List.map_cons, List.nodup_cons] at h
    by_cases hk : k = g
    · subst hk
      simpa [tallyInc] using h
    · have hmem : k ∉ (tallyInc rest g).map Prod.fst := by
        rw [tallyInc_mem_keys]
        rintro (hm | rfl)
        · exact h.1 hm
        · exact hk rfl
      have hkeys : ((tallyInc ((k, c) :: rest) g).map Prod.fst) =
          k :: (tallyInc rest g).map Prod.fst := by
        simp [tallyInc, hk]
      rw [hkeys]
      exact List.nodup_cons.mpr ⟨hmem, ih h.2⟩

theorem tallyInc_vals_pos (t : Tally) (g : GroupKey)
    (h : ∀ p ∈ t, 1 ≤ p.2) : ∀ p ∈ tallyInc t g, 1 ≤ p.2 := by
  induction t with
  | nil =>
    intro p hp
    rw [show tallyInc [] g = [(g, 1)] from rfl, List.mem_singleton] at hp
    subst hp
    exact Nat.le_refl 1
  | cons q rest ih =>
    obtain ⟨k, c⟩ := q
    intro p hp
    by_cases hk : k = g
    · rw [show tallyInc ((k, c) :: rest) g = (k, c + 1) :: rest by
        simp [tallyInc, hk]] at hp
      rcases List.mem_cons.mp hp with rfl | hp
      · exact Nat.succ_le_succ (Nat.zero_le c)
      · exact h p (List.mem_cons_of_mem _ hp)
    · rw [show tallyInc ((k, c) :: rest) g = (k, c) :: tallyInc rest g by
        simp [tallyInc, hk]] at hp
      rcases List.mem_cons.mp hp with rfl | hp
      · exact h (k, c) (List.mem_cons_self _ _)
      · exact ih (fun q hq => h q (List.mem_cons_of_mem _ hq)) p hp

end TallyLemmas

section ProcessLemmas

theorem isEmpty_false_of_ne {r : Record} (h : r ≠ []) : r.isEmpty = false := by
  cases r with
  | nil => exact absurd rfl h
  | cons a as => rfl

theorem lastIdxOf_isSome_iff (l : List String) (x : String) :
    (lastIdxOf l x).isSome = true ↔ x ∈ l := by
  induction l with
  | nil => simp [lastIdxOf]
  | cons y ys ih =>
    cases hys : lastIdxOf ys x with
    | some i =>
      have hmem : x ∈ ys := ih.mp (by rw [hys]; rfl)
      simp [lastIdxOf, hys, hmem]
    | none =>
      have hmem : x ∉ ys := fun hm => by
        have := ih.mpr hm
        rw [hys] at this
        cases this
      by_cases h : y = x
      · simp [lastIdxOf, hys, h]
      · have : ¬ x = y := fun hh => h hh.symm
        simp [lastIdxOf, hys, h, this, hmem]

theorem readGroup_ok (hdr : List String) (r : Record) (hg : "group" ∈ hdr) :
    ∃ g, readGroup hdr r = .ok g := by
  unfold readGroup
  cases hidx : lastIdxOf hdr "group" with
  | none =>
    have hsome := (lastIdxOf_isSome_iff hdr "group").mpr hg
    rw [hidx] at hsome
    cases hsome
  | some i => exact ⟨r.get? i, rfl⟩

theorem readGroup_err (hdr : List String) (r : Record) (hg : "group" ∉ hdr) :
    readGroup hdr r = .error .keyError := by
  unfold readGroup
  cases hidx : lastIdxOf hdr "group" with
  | none => rfl
  | some i =>
    have hmem := (lastIdxOf_isSome_iff hdr "group").mp (by rw [hidx]; rfl)
    exact absurd hmem hg

theorem processRows_ok (hdr : List String) (hg : "group" ∈ hdr)
    (rows : List Record) : ∀ t : Tally, ∃ t', processRows hdr rows t = .ok t' := by
  induction rows with
  | nil => exact fun t => ⟨t, rfl⟩
  | cons r rs ih =>
    intro t
    by_cases hr : r = []
    · simpa [processRows, hr] using ih t
    · obtain ⟨g, hgr⟩ := readGroup_ok hdr r hg
      simpa [processRows, hr, hgr] using ih (tallyInc t g)

theorem processRows_err (hdr : List String) (hg : "group" ∉ hdr)
    (rows : List Record) (hr : ∃ r ∈ rows, r ≠ []) :
    ∀ t : Tally, processRows hdr rows t = .error .keyError := by
  induction rows with
  | nil =>
    rcases hr with ⟨r, hm, _⟩
    cases hm
  | cons r rs ih =>
    intro t
    by_cases h : r = []
    · subst h
      rcases hr with ⟨r', hm, hne⟩
      rcases List.mem_cons.mp hm with rfl | hm
      · exact absurd rfl hne
      · simpa [processRows] using ih ⟨r', hm, hne⟩ t
    · simp [processRows, h, readGroup_err hdr r hg]

theorem processRows_sum (hdr : List String) (rows : List Record) :
    ∀ t t' : Tally, processRows hdr rows t = .ok t' →
      sumT t' = sumT t + nonBlankCount rows := by
  induction rows with
  | nil =>
    intro t t' h
    obtain rfl : t = t' := by simpa [processRows] using h
    simp [nonBlankCount]
  | cons r rs ih =>
    intro t t' h
    by_cases hr : r = []
    · subst hr
      rw [show processRows hdr ([] :: rs) t = processRows hdr rs t by
        simp [processRows]] at h
      rw [ih t t' h]
      simp [nonBlankCount, List.countP_cons]
    · cases hgr : readGroup hdr r with
      | error e =>
        rw [show processRows hdr (r :: rs) t = .error e by
          simp [processRows, hr, hgr]] at h
        cases h
      | ok g =>
        rw [show processRows hdr (r :: rs) t = processRows hdr rs (tallyInc t g) by
          simp [processRows, hr, hgr]] at h
        rw [ih (tallyInc t g) t' h, tallyInc_sum]
        have hne : r.isEmpty = false := isEmpty_false_of_ne hr
        simp [nonBlankCount, List.countP_cons, hne]
        omega

theorem processRows_lookup (hdr : List String) (rows : List Record) :
    ∀ t t' : Tally, processRows hdr rows t = .ok t' →
      ∀ g, tallyLookup t' g = tallyLookup t g + countGroup hdr rows g := by
  induction rows with
  | nil =>
    intro t t' h g
    obtain rfl : t = t' := by simpa [processRows] using h
    simp [countGroup]
  | cons r rs ih =>
    intro t t' h g
    by_cases hr : r = []
    · subst hr
      rw [show processRows hdr ([] :: rs) t = processRows hdr rs t by
        simp [processRows]] at h
      rw [ih t t' h g]
      simp [countGroup, List.countP_cons]
    · cases hgr : readGroup hdr r with
      | error e =>
        rw [show processRows hdr (r :: rs) t = .error e by
          simp [processRows, hr, hgr]] at h
        cases h
      | ok g0 =>
        rw [show processRows hdr (r :: rs) t = processRows hdr rs (tallyInc t g0) by
          simp [processRows, hr, hgr]] at h
        have hne : r.isEmpty = false := isEmpty_false_of_ne hr
        by_cases hgg : g0 = g
        · subst hgg
          rw [ih (tallyInc t g0) t' h g0, tallyInc_lookup_same]
          simp [countGroup, List.countP_cons, hne, hgr, Except.toOption]
          omega
        · have hgg' : ¬ g = g0 := fun hh => hgg hh.symm
          rw [ih (tallyInc t g0) t' h g, tallyInc_lookup_ne t g0 g hgg']
          simp [countGroup, List.countP_cons, hne, hgr, hgg, Except.toOption]

theorem processRows_nodup (hdr : List String) (rows : List Record) :
    ∀ t t' : Tally, processRows hdr rows t = .ok t' →
      (t.map Prod.fst).Nodup → (t'.map Prod.fst).Nodup := by
  induction rows with
  | nil =>
    intro t t' h hn
    obtain rfl : t = t' := by simpa [processRows] using h
    exact hn
  | cons r rs ih =>
    intro t t' h hn
    by_cases hr : r = []
    · subst hr
      rw [show processRows hdr ([] :: rs) t = processRows hdr rs t by
        simp [processRows]] at h
      exact ih t t' h hn
    · cases hgr : readGroup hdr r with
      | error e =>
        rw [show processRows hdr (r :: rs) t = .error e by
          simp [processRows, hr, hgr]] at h
        cases h
      | ok g =>
        rw [show processRows hdr (r :: rs) t = processRows hdr rs (tallyInc t g) by
          simp [processRows, hr, hgr]] at h
        exact ih (tallyInc t g) t' h (tallyInc_keys_nodup t g hn)

theorem processRows_pos (hdr : List String) (rows : List Record) :
    ∀ t t' : Tally, processRows hdr rows t = .ok t' →
      (∀ p ∈ t, 1 ≤ p.2) → ∀ p ∈ t', 1 ≤ p.2 := by
  induction rows with
  | nil =>
    intro t t' h hp
    obtain rfl : t = t' := by simpa [processRows] using h
    exact hp
  | cons r rs ih =>
    intro t t' h hp
    by_cases hr : r = []
    · subst hr
      rw [show processRows hdr ([] :: rs) t = processRows hdr rs t by
        simp [processRows]] at h
      exact ih t t' h hp
    · cases hgr : readGroup hdr r with
      | error e =>
        rw [show processRows hdr (r :: rs) t = .error e by
          simp [processRows, hr, hgr]] at h
        cases h
      | ok g =>
        rw [show processRows hdr (r :: rs) t = processRows hdr rs (tallyInc t g) by
          simp [processRows, hr, hgr]] at h
        exact ih (tallyInc t g) t' h (tallyInc_vals_pos t g hp)

theorem tallyLookup_pos_iff (t : Tally) (g : GroupKey) (h : ∀ p ∈ t, 1 ≤ p.2) :
    0 < tallyLookup t g ↔ g ∈ t.map Prod.fst := by
  induction t with
  | nil => simp [tallyLookup]
  | cons p rest ih =>
    obtain ⟨k, c⟩ := p
    by_cases hk : k = g
    · subst hk
      have hc : 1 ≤ c := h (k, c) (List.mem_cons_self _ _)
      simp [tallyLookup]
      omega
    · have hk' : ¬ g = k := fun hh => hk hh.symm
      rw [show tallyLookup ((k, c) :: rest) g = tallyLookup rest g by
        simp [tallyLookup, hk]]
      rw [ih (fun q hq => h q (List.mem_cons_of_mem _ hq))]
      simp [hk']

theorem countGroup_pos_iff (hdr : List String) (rows : List Record) (g : GroupKey) :
    0 < countGroup hdr rows g ↔
      ∃ r ∈ rows, r ≠ [] ∧ readGroup hdr r = .ok g := by
  unfold countGroup
  rw [List.countP_pos_iff]
  constructor
  · rintro ⟨r, hm, hp⟩
    rw [Bool.and_eq_true] at hp
    obtain ⟨h1, h2⟩ := hp
    refine ⟨r, hm, ?_, ?_⟩
    · intro hnil
      rw [hnil] at h1
      cases h1
    · have := of_decide_eq_true h2
      cases hgr : readGroup hdr r with
      | error e => rw [hgr] at this; cases this
      | ok g0 =>
        rw [hgr] at this
        obtain rfl : g0 = g := by simpa [Except.toOption] using this
        rfl
  · rintro ⟨r, hm, hne, hgr⟩
    refine ⟨r, hm, ?_⟩
    rw [Bool.and_eq_true]
    exact ⟨by rw [isEmpty_false_of_ne hne]; rfl,
      decide_eq_true (by rw [hgr]; rfl)⟩

end ProcessLemmas

section ReportLemmas

theorem sortedItems_ok {t : Tally} {s : List (GroupKey × Nat)}
    (h : sortedItems t = .ok s) :
    s = List.insertionSort itemLE t ∧
      ¬(hasNoneKey t = true ∧ hasSomeKey t = true) := by
  unfold sortedItems at h
  by_cases hc : hasNoneKey t && hasSomeKey t
  · rw [if_pos hc] at h
    cases h
  · rw [if_neg hc] at h
    injection h with h
    refine ⟨h.symm, ?_⟩
    rw [Bool.and_eq_true] at hc
    exact hc

theorem sortedItems_perm {t : Tally} {s : List (GroupKey × Nat)}
    (h : sortedItems t = .ok s) : s.Perm t := by
  rw [(sortedItems_ok h).1]
  exact List.perm_insertionSort itemLE t

theorem sortedItems_sorted {t : Tally} {s : List (GroupKey × Nat)}
    (h : sortedItems t = .ok s) : List.Sorted itemLE s := by
  rw [(sortedItems_ok h).1]
  exact List.sorted_insertionSort itemLE t

/-- Decomposition of a successful run: the row pass produced a tally,
the sort succeeded, and the output is the header line followed by the
formatted sorted items. -/
theorem run_ok (file : CsvFile) (h : (run file).error = none) :
    ∃ t s, processRows (header file) file.tail [] = .ok t ∧
      sortedItems t = .ok s ∧
      (run file).output = "Groups found:" :: s.map fmtLine := by
  cases hp : processRows (header file) file.tail [] with
  | error e =>
    rw [run, hp] at h
    cases h
  | ok t =>
    cases hs : sortedItems t with
    | error e =>
      rw [run, hp] at h
      simp [hs] at h
    | ok s =>
      refine ⟨t, s, rfl, hs, ?_⟩
      rw [run, hp]
      simp [hs]

end ReportLemmas

section ClaimC1

/-- C1, counterexample: a well-formed CSV whose header contains `group`
and whose one data row has an empty-string `group` field.  The run
succeeds and prints the count 1 under the empty-string key, yet the
number of data rows with a non-empty `group` field is 0, so the sum of
printed counts does not equal that number. -/
theorem sum_nonEmpty_invariant_fails :
    (run [["group"], [""]]).error = none ∧
    (run [["group"], [""]]).output =
      "Groups found:" :: [((some "" : GroupKey), 1)].map fmtLine ∧
    ([((some "" : GroupKey), 1)].map Prod.snd).sum = 1 ∧
    specNonEmptyGroupRows ["group"] [[""]] = 0 := by
  decide

/-- C1, amended: for every input whose header contains a `group`
column, whenever the run succeeds the sum of all counts printed in the
final report equals the number of non-blank data rows processed —
including rows whose `group` field is the empty string, which the
script counts like any other value. -/
theorem sum_counts_eq_nonBlank_rows (file : CsvFile)
    (_hg : "group" ∈ header file) (hok : (run file).error = none) :
    ∃ s : List (GroupKey × Nat),
      (run file).output = "Groups found:" :: s.map fmtLine ∧
      (s.map Prod.snd).sum = nonBlankCount file.tail := by
  obtain ⟨t, s, hp, hs, hout⟩ := run_ok file hok
  refine ⟨s, hout, ?_⟩
  have hsum := processRows_sum (header file) file.tail [] t hp
  have hperm : (s.map Prod.snd).Perm (t.map Prod.snd) :=
    (sortedItems_perm hs).map Prod.snd
  rw [hperm.sum_eq]
  simpa [sumT] using hsum

theorem sum_counts_eq_nonBlank_rows_witness :
    "group" ∈ header [["group"], ["A"], ["A"]] ∧
    (run [["group"], ["A"], ["A"]]).error = none ∧
    ∃ s : List (GroupKey × Nat),
      (run [["group"], ["A"], ["A"]]).output = "Groups found:" :: s.map fmtLine ∧
      (s.map Prod.snd).sum = nonBlankCount ([["group"], ["A"], ["A"]] : CsvFile).tail :=
  ⟨by decide, by decide,
    sum_counts_eq_nonBlank_rows [["group"], ["A"], ["A"]] (by decide) (by decide)⟩

end ClaimC1

section ClaimC2

/-- C2, counterexample: a file whose header lacks the `group` column
but which has no data rows.  The loop body never runs, so `row['group']`
is never evaluated: the run terminates without error (printing the
report header), contradicting the claim that every such input fails. -/
theorem missing_group_header_no_rows_succeeds :
    run [["name"]] = ⟨["Groups found:"], none⟩ := by
  decide

/-- C2, amended: the run fails with a `KeyError` (the
MissingFieldError-equivalent), printing nothing at all, whenever the
header lacks a `group` column and at least one data row is non-blank.
(A data row that merely has fewer fields than the header does not
trigger this: `DictReader` fills the missing field with `None`.) -/
theorem missing_group_fails_before_output (file : CsvFile)
    (hg : "group" ∉ header file) (hr : ∃ r ∈ file.tail, r ≠ []) :
    run file = ⟨[], some PyErr.keyError⟩ := by
  rw [run, processRows_err (header file) hg file.tail hr []]

theorem missing_group_fails_before_output_witness :
    "group" ∉ header [["name"], ["a"]] ∧
    (∃ r ∈ ([["name"], ["a"]] : CsvFile).tail, r ≠ []) ∧
    run [["name"], ["a"]] = ⟨[], some PyErr.keyError⟩ :=
  ⟨by decide, ⟨["a"], by decide⟩,
    missing_group_fails_before_output [["name"], ["a"]] (by decide)
      ⟨["a"], by decide⟩⟩

end ClaimC2

section ClaimC3

/-- C3: if the file cannot be opened, or any error occurs during the
row pass, the run aborts with an error and nothing at all is printed
(the report is only emitted after the full pass succeeds). -/
theorem errors_abort_without_output (fs : String → Option CsvFile)
    (h : fs csvPath = none ∨
      ∃ f, fs csvPath = some f ∧
        ∃ e, processRows (header f) f.tail [] = .error e) :
    (runOpen fs).output = [] ∧ (runOpen fs).error ≠ none := by
  rcases h with hopen | ⟨f, hf, e, he⟩
  · rw [runOpen, hopen]
    exact ⟨rfl, by simp⟩
  · rw [runOpen, hf]
    show ((run f).output = []) ∧ ((run f).error ≠ none)
    rw [run, he]
    exact ⟨rfl, by simp⟩

theorem errors_abort_without_output_witness :
    (runOpen (fun _ => none)).output = [] ∧
    (runOpen (fun _ => none)).error ≠ none :=
  errors_abort_without_output (fun _ => none) (Or.inl rfl)

end ClaimC3

section ClaimC4

/-- C4, counterexample: a data row with fewer fields than the header (a
field-count mismatch).  `csv.DictReader` does not fail on it — the run
completes successfully and prints a full report, so the mismatch is not
propagated as a failure. -/
theorem short_row_run_succeeds :
    run [["group", "x"], ["A"]] =
      ⟨["Groups found:", "- A: 1 fields"], none⟩ := by
  decide

/-- C4, amended: a data row whose field count does not match the header
never causes a row-processing failure: per `csv.DictReader`'s actual
contract, missing fields are filled with `None` and extra fields are
collected under the rest key, so whenever the header has a `group`
column the pass over the rows always completes successfully, whatever
the field counts of the data rows. -/
theorem field_count_mismatch_not_fatal (file : CsvFile)
    (hg : "group" ∈ header file) :
    ∃ t, processRows (header file) file.tail [] = .ok t :=
  processRows_ok (header file) hg file.tail []

theorem field_count_mismatch_not_fatal_witness :
    "group" ∈ header [["group"], ["A", "B"]] ∧
    ∃ t, processRows (header [["group"], ["A", "B"]]) [["A", "B"]] [] = .ok t :=
  ⟨by decide, field_count_mismatch_not_fatal [["group"], ["A", "B"]] (by decide)⟩

end ClaimC4

section ClaimC5

/-- C5: in every successful run the report lists, after the header
line, one line per distinct observed group key, with no duplicates, in
strictly ascending lexicographic (code-point) order of the group name,
and the listed keys are exactly the group values observed across the
non-blank data rows. -/
theorem report_sorted_distinct (file : CsvFile)
    (hok : (run file).error = none) :
    ∃ s : List (GroupKey × Nat),
      (run file).output = "Groups found:" :: s.map fmtLine ∧
      (s.map Prod.fst).Nodup ∧
      s.Pairwise (fun p q => keyLT p.1 q.1) ∧
      ∀ g : GroupKey, g ∈ s.map Prod.fst ↔
        ∃ r ∈ file.tail, r ≠ [] ∧ readGroup (header file) r = .ok g := by
  obtain ⟨t, s, hp, hs, hout⟩ := run_ok file hok
  have hperm : s.Perm t := sortedItems_perm hs
  have hnodup_t : (t.map Prod.fst).Nodup :=
    processRows_nodup (header file) file.tail [] t hp (by simp)
  have hnodup : (s.map Prod.fst).Nodup := (hperm.map Prod.fst).nodup_iff.mpr hnodup_t
  have hpos_t : ∀ p ∈ t, 1 ≤ p.2 :=
    processRows_pos (header file) file.tail [] t hp (by simp)
  refine ⟨s, hout, hnodup, ?_, ?_⟩
  · have hne_pair : s.Pairwise (fun p q => p.1 ≠ q.1) := by
      rw [List.Nodup, List.pairwise_map] at hnodup
      exact hnodup
    have hsorted : s.Pairwise itemLE := sortedItems_sorted hs
    rcases (sortedItems_ok hs).2 |> not_and_or.mp with hnone | hsome
    · have hnone' : hasNoneKey t = false := Bool.eq_false_iff.mpr hnone
      have hall : ∀ p ∈ t, p.1 ≠ none := by
        simp [hasNoneKey] at hnone'
        exact fun p hp => hnone' p.1 p.2 hp
      refine (hsorted.and hne_pair).imp_of_mem ?_
      intro p q hpmem hqmem hpq
      obtain ⟨x, hx⟩ := Option.ne_none_iff_exists'.mp (hall p (hperm.mem_iff.mp hpmem))
      obtain ⟨y, hy⟩ := Option.ne_none_iff_exists'.mp (hall q (hperm.mem_iff.mp hqmem))
      refine ⟨x, y, hx, hy, ?_⟩
      have hle : strLE x.data y.data = true := by
        have := hpq.1
        rw [itemLE, hx, hy] at this
        exact this
      have hxy : x ≠ y := by
        intro hxyeq
        exact hpq.2 (by rw [hx, hy, hxyeq])
      exact strLE_lex_of_ne hle fun hdata => hxy (String.ext hdata)
    · have hsome' : hasSomeKey t = false := Bool.eq_false_iff.mpr hsome
      have hall : ∀ p ∈ t, p.1 = none := by
        simp [hasSomeKey] at hsome'
        exact fun p hp => hsome' p.1 p.2 hp
      have halls : ∀ p ∈ s, p.1 = none := fun p hp => hall p (hperm.mem_iff.mp hp)
      match s, hnodup, halls with
      | [], _, _ => exact List.Pairwise.nil
      | [p], _, _ => exact List.pairwise_singleton _ p
      | p :: q :: rest, hnd, ha =>
        exfalso
        have h1 : p.1 = none := ha p (List.mem_cons_self _ _)
        have h2 : q.1 = none := ha q (List.mem_cons_of_mem _ (List.mem_cons_self _ _))
        rw [List.map_cons, List.map_cons, List.nodup_cons] at hnd
        exact hnd.1 (by rw [h1, ← h2]; exact List.mem_cons_self _ _)
  · intro g
    have hlookup := processRows_lookup (header file) file.tail [] t hp g
    rw [show tallyLookup [] g = 0 from rfl, Nat.zero_add] at hlookup
    rw [(hperm.map Prod.fst).mem_iff, ← tallyLookup_pos_iff t g hpos_t,
      hlookup, countGroup_pos_iff]

theorem report_sorted_distinct_witness :
    (run [["group"], ["B"], ["A"], ["B"]]).error = none ∧
    ∃ s : List (GroupKey × Nat),
      (run [["group"], ["B"], ["A"], ["B"]]).output = "Groups found:" :: s.map fmtLine ∧
      (s.map Prod.fst).Nodup ∧
      s.Pairwise (fun p q => keyLT p.1 q.1) ∧
      ∀ g : GroupKey, g ∈ s.map Prod.fst ↔
        ∃ r ∈ ([["group"], ["B"], ["A"], ["B"]] : CsvFile).tail, r ≠ [] ∧
          readGroup (header [["group"], ["B"], ["A"], ["B"]]) r = .ok g :=
  ⟨by decide, report_sorted_distinct [["group"], ["B"], ["A"], ["B"]] (by decide)⟩

end ClaimC5

section ClaimC6

/-- C6: on the input whose data rows carry the group values
`A, B, A, C, B, A`, the full output is the header line followed by
exactly the lines for `A` (count 3), `B` (count 2) and `C` (count 1),
in that order, in the fixed `- {group}: {count} fields` format. -/
theorem report_of_ABACBA :
    run [["group"], ["A"], ["B"], ["A"], ["C"], ["B"], ["A"]] =
      ⟨["Groups found:", "- A: 3 fields", "- B: 2 fields", "- C: 1 fields"],
        none⟩ := by
  decide

end ClaimC6

section ClaimC7

/-- C7: on an input consisting of a header row only (whatever that
header is) the run succeeds, and the whole output is the single line
`Groups found:` with no group lines after it. -/
theorem header_only_report (h : List String) :
    run [h] = ⟨["Groups found:"], none⟩ := rfl

end ClaimC7

section ClaimC8

/-- C8: rows whose `group` field is present but empty are neither
skipped nor filtered: whenever the header has a `group` column the pass
succeeds and the count recorded under the empty-string key equals the
number of non-blank data rows whose `group` value is the empty string —
the empty string is tallied as a group of its own. -/
theorem empty_string_group_counted (file : CsvFile)
    (hg : "group" ∈ header file) :
    ∃ t, processRows (header file) file.tail [] = .ok t ∧
      tallyLookup t (some "") = countGroup (header file) file.tail (some "") := by
  obtain ⟨t, hp⟩ := processRows_ok (header file) hg file.tail []
  refine ⟨t, hp, ?_⟩
  have hlookup := processRows_lookup (header file) file.tail [] t hp (some "")
  simpa [tallyLookup] using hlookup

theorem empty_string_group_counted_witness :
    "group" ∈ header [["group"], [""], ["A"]] ∧
    ∃ t, processRows (header [["group"], [""], ["A"]]) [[""], ["A"]] [] = .ok t ∧
      tallyLookup t (some "") =
        countGroup (header [["group"], [""], ["A"]]) [[""], ["A"]] (some "") :=
  ⟨by decide, empty_string_group_counted [["group"], [""], ["A"]] (by decide)⟩

end ClaimC8

section ClaimC9

/-- C9: the run is deterministic in its input file: its observable
behaviour depends only on the contents stored at the hardcoded path, so
two runs over file systems agreeing on that file (in particular two
runs over the same unmodified file system) produce identical output. -/
theorem run_deterministic_in_file (fs1 fs2 : String → Option CsvFile)
    (h : fs1 csvPath = fs2 csvPath) : runOpen fs1 = runOpen fs2 := by
  rw [runOpen, runOpen, h]

theorem run_deterministic_in_file_witness :
    runOpen (fun _ => some [["group"], ["A"]]) =
      runOpen (fun p => if p = "other" then none else some [["group"], ["A"]]) :=
  run_deterministic_in_file _ _ (by decide)

end ClaimC9

section ClaimC10

/-- C10: in every successful run each printed (group, count) pair has a
count of at least 1: keys enter the tally with count 1 and are only
ever incremented, so no group is reported with count zero. -/
theorem report_counts_positive (file : CsvFile)
    (hok : (run file).error = none) :
    ∃ s : List (GroupKey × Nat),
      (run file).output = "Groups found:" :: s.map fmtLine ∧
      ∀ p ∈ s, 1 ≤ p.2 := by
  obtain ⟨t, s, hp, hs, hout⟩ := run_ok file hok
  refine ⟨s, hout, ?_⟩
  have hpos := processRows_pos (header file) file.tail [] t hp (by simp)
  exact fun p hpmem => hpos p ((sortedItems_perm hs).mem_iff.mp hpmem)

theorem report_counts_positive_witness :
    (run [["group"], ["A"], ["B"]]).error = none ∧
    ∃ s : List (GroupKey × Nat),
      (run [["group"], ["A"], ["B"]]).output = "Groups found:" :: s.map fmtLine ∧
      ∀ p ∈ s, 1 ≤ p.2 :=
  ⟨by decide, report_counts_positive [["group"], ["A"], ["B"]] (by decide)⟩

end ClaimC10

end ParseCsv
